import Mathlib

/-!
Shallow embedding, in Lean 4, of the configuration bootstrap implemented in
`cmd/blockstoreingester/main.go`.

Modelling conventions:
* Go strings are modelled as `List Char`; the process argument vector
  (`os.Args[1:]`) as a `List (List Char)`.
* External collaborators are explicit parameters or explicitly threaded
  state: the file system (`os.ReadFile`) is a function
  `List Char → Except ρ (List Char)`, the process environment (`os.Getenv`)
  a function `List Char → List Char` (Go cannot distinguish an unset
  variable from an empty one through `os.Getenv`), the YAML deserializer a
  function `List Char → Cfg → Cfg × Option γ`, and the Prometheus gauge
  `configHash` an association list from label value to gauge value.
* Loops become recursion; machine behaviour that cannot return
  (`os.Exit`) becomes an explicit exit-code field in a result record.
-/

set_option autoImplicit false

/-- The Go constant `configFileOption = "config.file"` (main.go line 19). -/
def configFileOption : List Char := "config.file".toList

/-- The Go constant `configExpandENV = "config.expand-env"` (main.go line 20). -/
def configExpandENV : List Char := "config.expand-env".toList

/-- The pair of values produced by `parseConfigFileParameter` (main.go line 69):
the named results `configFile string` and `expandEnv bool`, with the zero
values `""` and `false` installed by `fs.StringVar`/`fs.BoolVar` as defaults. -/
structure BootstrapOptions where
  configFile : List Char
  expandEnv : Bool
deriving DecidableEq, Repr

/-- Split a character list at the first `'='`, returning the part before it
and, when an `'='` is present, the part after it.  This mirrors the scan
`for i := 1; i < len(name); i++ { if name[i] == '=' ... }` inside Go's
`flag.(*FlagSet).parseOne` (the scan is applied to the name without its
first character, since an equals sign cannot come first). -/
def splitFirstEq : List Char → List Char × Option (List Char)
  | [] => ([], none)
  | c :: t =>
    if c = '=' then ([], some t)
    else
      match splitFirstEq t with
      | (a, b) => (c :: a, b)

/-- Tokenize a single command-line argument exactly as the syntax phase of
Go's `flag.(*FlagSet).parseOne` does.  `none` means that parsing stops at
this argument without setting any flag: the argument is not a flag
(`len(s) < 2` or no leading `'-'`), is the terminator `"--"`, or has bad
flag syntax (name starting with `'-'` or `'='`).  `some (name, val)`
means the argument is a flag with the given name and, when `val = some v`,
the inline `=`-separated value `v`. -/
def parseFlagToken (s : List Char) : Option (List Char × Option (List Char)) :=
  match s with
  | [] => none
  | [_] => none
  | c0 :: c1 :: t =>
    if c0 = '-' then
      match (if c1 = '-' then t else c1 :: t) with
      | [] => none
      | n0 :: nt =>
        if n0 = '-' ∨ n0 = '=' then none
        else
          match splitFirstEq nt with
          | (pre, val) => some (n0 :: pre, val)
    else none

/-- Go's `strconv.ParseBool`, used by the `flag` package to set a boolean
flag from an inline `=`-separated value. -/
def parseBoolGo (s : List Char) : Option Bool :=
  if s = "1".toList ∨ s = "t".toList ∨ s = "T".toList ∨
     s = "true".toList ∨ s = "TRUE".toList ∨ s = "True".toList then some true
  else if s = "0".toList ∨ s = "f".toList ∨ s = "F".toList ∨
     s = "false".toList ∨ s = "FALSE".toList ∨ s = "False".toList then some false
  else none

/-- One call `fs.Parse(args)` on the bootstrap flag set of main.go lines
71-76: exactly two formal flags, the string flag `config.file` and the
boolean flag `config.expand-env`.  Flag values persist in `st` across
calls (Go flag variables are not reset by `Parse`).  Errors are ignored by
the caller (`flag.ContinueOnError` with discarded output), but an error
still stops the current parse, so every error branch returns the state
reached so far: unknown flag (including `-h`/`-help`), bad syntax,
non-flag argument, `"--"`, a string flag missing its argument, or an
invalid boolean value.  A string flag without an inline value consumes the
next argument as its value, whatever that argument looks like. -/
def fsParse (st : BootstrapOptions) : List (List Char) → BootstrapOptions
  | [] => st
  | s :: rest =>
    match parseFlagToken s with
    | none => st
    | some (name, val) =>
      if name = configExpandENV then
        match val with
        | none => fsParse { st with expandEnv := true } rest
        | some v =>
          match parseBoolGo v with
          | some b => fsParse { st with expandEnv := b } rest
          | none => st
      else if name = configFileOption then
        match val with
        | some v => fsParse { st with configFile := v } rest
        | none =>
          if h : rest = [] then st
          else fsParse { st with configFile := rest.head h } rest.tail
      else st
termination_by l => l.length
decreasing_by
  all_goals simp [List.length_tail]
  all_goals omega

/-- The shift-and-retry loop of main.go lines 81-84:
`for len(args) > 0 { _ = fs.Parse(args); args = args[1:] }`. -/
def parseLoop (st : BootstrapOptions) : List (List Char) → BootstrapOptions
  | [] => st
  | a :: rest => parseLoop (fsParse st (a :: rest)) rest

/-- `parseConfigFileParameter` (main.go lines 69-87): run the shift-and-retry
scan starting from the flag defaults `("", false)`. -/
def parseConfigFileParameter (args : List (List Char)) : BootstrapOptions :=
  parseLoop { configFile := [], expandEnv := false } args

/-- Fuel-indexed version of `parseLoop`, used to express termination: the
loop consumes exactly one argument of the shrinking slice per iteration,
so `args.length` units of fuel always suffice. -/
def parseLoopFuel : Nat → BootstrapOptions → List (List Char) → Option BootstrapOptions
  | _, st, [] => some st
  | 0, _, _ :: _ => none
  | n + 1, st, a :: rest => parseLoopFuel n (fsParse st (a :: rest)) rest

/-- An argument is inert for the bootstrap flag set when a parse starting at
it stops there without touching either bootstrap flag: it is not a flag at
all, or it is a flag whose name is unknown to the bootstrap parser. -/
def inert (s : List Char) : Bool :=
  match parseFlagToken s with
  | none => true
  | some (n, _) => decide (n ≠ configFileOption) && decide (n ≠ configExpandENV)

/-- Go's `isShellSpecialVar` from the `os` package: the single-character
shell special variables recognized by `os.Expand`. -/
def isShellSpecialVar (c : Char) : Bool :=
  c = '*' || c = '#' || c = '$' || c = '@' || c = '!' || c = '?' ||
  ('0' ≤ c && c ≤ '9')

/-- Go's `isAlphaNum` from the `os` package: underscore, digits, and ASCII
letters. -/
def isAlphaNum (c : Char) : Bool :=
  c = '_' || ('0' ≤ c && c ≤ '9') || ('a' ≤ c && c ≤ 'z') || ('A' ≤ c && c ≤ 'Z')

/-- Scan a character list for the first `'}'`: `some (p, k)` when the
character at index `k` is the first `'}'` and `p` is the prefix before it;
`none` when there is no `'}'`.  This mirrors the `Scan to closing brace`
loop of Go's `os.getShellName`. -/
def braceSplit : List Char → Option (List Char × Nat)
  | [] => none
  | c :: t =>
    if c = '}' then some ([], 0)
    else
      match braceSplit t with
      | some (p, k) => some (c :: p, k + 1)
      | none => none

/-- Go's `os.getShellName`: given the text immediately after a `'$'`,
return the placeholder name and the number of characters consumed.  A
returned empty name with positive width means invalid syntax whose
characters are eaten by `os.Expand`; an empty name with width 0 means the
`'$'` does not start a placeholder and is kept verbatim.  (Go never calls
this on an empty string; the `[]` case is unreachable.) -/
def getShellName (s : List Char) : List Char × Nat :=
  match s with
  | [] => ([], 0)
  | c0 :: t =>
    if c0 = '{' then
      match t with
      | c1 :: c2 :: _ =>
        if isShellSpecialVar c1 && c2 = '}' then ([c1], 3)
        else
          match braceSplit t with
          | some ([], _) => ([], 2)
          | some (p, k) => (p, k + 2)
          | none => ([], 1)
      | _ =>
        match braceSplit t with
        | some ([], _) => ([], 2)
        | some (p, k) => (p, k + 2)
        | none => ([], 1)
    else if isShellSpecialVar c0 then ([c0], 1)
    else
      match s.takeWhile isAlphaNum with
      | name => (name, name.length)

/-- Go's `os.Expand` driver loop, written as structural left-to-right
recursion: the loop over index `j` with cut points `i` appends the literal
text between placeholders and, at each `'$'` that is not the final
character, dispatches on `getShellName` exactly as os.Expand's three
branches do (eat invalid syntax, keep a bare `'$'`, or substitute
`mapping name`), resuming after the `w` consumed characters. -/
def expandGo (mapping : List Char → List Char) : List Char → List Char
  | [] => []
  | c :: rest =>
    if c = '$' ∧ rest ≠ [] then
      match getShellName rest with
      | (name, w) =>
        if name = [] ∧ 0 < w then expandGo mapping (rest.drop w)
        else if name = [] then '$' :: expandGo mapping (rest.drop w)
        else mapping name ++ expandGo mapping (rest.drop w)
    else c :: expandGo mapping rest
termination_by l => l.length
decreasing_by
  all_goals simp [List.length_drop]
  all_goals omega

/-- Split a character list at the first `':'`:  the Go call
`strings.SplitN(key, ":", 2)` in `expandEnv` yields `[k]` (no colon) or
`[k, d]` (split at the first colon), modelled here as `(k, none)` or
`(k, some d)`. -/
def splitFirstColon : List Char → List Char × Option (List Char)
  | [] => ([], none)
  | c :: t =>
    if c = ':' then ([], some t)
    else
      match splitFirstColon t with
      | (a, b) => (c :: a, b)

/-- The mapping closure passed to `os.Expand` by `expandEnv`
(main.go lines 118-126): split the placeholder on the first `':'` into a
name and an optional default, look the name up in the environment, and
fall back to the default when the lookup result is empty. -/
def expandMapping (env : List Char → List Char) (key : List Char) : List Char :=
  match splitFirstColon key with
  | (k, d) =>
    let v := env k
    if v = [] then
      match d with
      | some dv => dv
      | none => v
    else v

/-- `expandEnv` (main.go lines 117-128): `os.Expand` of the file contents
with the name/default mapping closure, the environment being an explicit
parameter standing for `os.Getenv`. -/
def expandEnv (env : List Char → List Char) (config : List Char) : List Char :=
  expandGo (expandMapping env) config

/-- Reduce modulo `2 ^ 32`, the word size of SHA-256 arithmetic. -/
def w32 (n : Nat) : Nat := n % 4294967296

/-- Rotate a 32-bit word (given reduced) right by `k` bits. -/
def rotr32 (k n : Nat) : Nat := (n / 2 ^ k) + (n % 2 ^ k) * 2 ^ (32 - k)

/-- Bitwise complement of a 32-bit word (given reduced). -/
def bnot32 (n : Nat) : Nat := 4294967295 - n % 4294967296

/-- SHA-256 round constants (FIPS 180-4). -/
def shaK : List Nat :=
  [1116352408, 1899447441, 3049323471, 3921009573, 961987163,
   1508970993, 2453635748, 2870763221, 3624381080, 310598401,
   607225278, 1426881987, 1925078388, 2162078206, 2614888103,
   3248222580, 3835390401, 4022224774, 264347078, 604807628,
   770255983, 1249150122, 1555081692, 1996064986, 2554220882,
   2821834349, 2952996808, 3210313671, 3336571891, 3584528711,
   113926993, 338241895, 666307205, 773529912, 1294757372,
   1396182291, 1695183700, 1986661051, 2177026350, 2456956037,
   2730485921, 2820302411, 3259730800, 3345764771, 3516065817,
   3600352804, 4094571909, 275423344, 430227734, 506948616,
   659060556, 883997877, 958139571, 1322822218, 1537002063,
   1747873779, 1955562222, 2024104815, 2227730452, 2361852424,
   2428436474, 2756734187, 3204031479, 3329325298]

/-- SHA-256 initial hash value (FIPS 180-4). -/
def shaH0 : List Nat :=
  [1779033703, 3144134277, 1013904242, 2773480762,
   1359893119, 2600822924, 528734635, 1541459225]

/-- Big-endian byte decomposition of `n` into `k` bytes. -/
def bytesBE : Nat → Nat → List Nat
  | 0, _ => []
  | k + 1, n => bytesBE k (n / 256) ++ [n % 256]

/-- SHA-256 message padding: append `0x80`, zero bytes up to 56 mod 64, and
the 8-byte big-endian bit length. -/
def padMessage (msg : List Nat) : List Nat :=
  let padZeros := (119 - msg.length % 64) % 64
  msg ++ [0x80] ++ List.replicate padZeros 0 ++ bytesBE 8 (msg.length * 8)

/-- Pack bytes into big-endian 32-bit words. -/
def toWordsBE : List Nat → List Nat
  | b0 :: b1 :: b2 :: b3 :: rest => (((b0 * 256 + b1) * 256 + b2) * 256 + b3) :: toWordsBE rest
  | _ => []

/-- SHA-256 small sigma functions. -/
def ssig0 (n : Nat) : Nat := rotr32 7 n ^^^ rotr32 18 n ^^^ (n / 2 ^ 3)

/-- SHA-256 small sigma-1. -/
def ssig1 (n : Nat) : Nat := rotr32 17 n ^^^ rotr32 19 n ^^^ (n / 2 ^ 10)

/-- SHA-256 big sigma-0. -/
def bsig0 (n : Nat) : Nat := rotr32 2 n ^^^ rotr32 13 n ^^^ rotr32 22 n

/-- SHA-256 big sigma-1. -/
def bsig1 (n : Nat) : Nat := rotr32 6 n ^^^ rotr32 11 n ^^^ rotr32 25 n

/-- SHA-256 choice function. -/
def shaCh (e f g : Nat) : Nat := (e &&& f) ^^^ (bnot32 e &&& g)

/-- SHA-256 majority function. -/
def shaMaj (a b c : Nat) : Nat := (a &&& b) ^^^ (a &&& c) ^^^ (b &&& c)

/-- Extend a message schedule by `n` further words. -/
def extendSchedule (w : List Nat) : Nat → List Nat
  | 0 => w
  | n + 1 =>
    let L := w.length
    let x := w32 (ssig1 (w.getD (L - 2) 0) + w.getD (L - 7) 0 +
                  ssig0 (w.getD (L - 15) 0) + w.getD (L - 16) 0)
    extendSchedule (w ++ [x]) n

/-- SHA-256 compression of one 64-byte block into the running hash. -/
def compressBlock (h : List Nat) (block : List Nat) : List Nat :=
  let ws := extendSchedule (toWordsBE block) 48
  let step := fun (t : Nat × Nat × Nat × Nat × Nat × Nat × Nat × Nat) (i : Nat) =>
    match t with
    | (a, b, c, d, e, f, g, hh) =>
      let t1 := w32 (hh + bsig1 e + shaCh e f g + shaK.getD i 0 + ws.getD i 0)
      let t2 := w32 (bsig0 a + shaMaj a b c)
      (w32 (t1 + t2), a, b, c, w32 (d + t1), e, f, g)
  match (List.range 64).foldl step
      (h.getD 0 0, h.getD 1 0, h.getD 2 0, h.getD 3 0,
       h.getD 4 0, h.getD 5 0, h.getD 6 0, h.getD 7 0) with
  | (a, b, c, d, e, f, g, hh) =>
    [w32 (h.getD 0 0 + a), w32 (h.getD 1 0 + b), w32 (h.getD 2 0 + c),
     w32 (h.getD 3 0 + d), w32 (h.getD 4 0 + e), w32 (h.getD 5 0 + f),
     w32 (h.getD 6 0 + g), w32 (h.getD 7 0 + hh)]

/-- Fold the compression function over the 64-byte blocks of a padded
message. -/
def sha256Blocks (h : List Nat) (m : List Nat) : List Nat :=
  match m with
  | [] => h
  | b :: rest => sha256Blocks (compressBlock h ((b :: rest).take 64)) ((b :: rest).drop 64)
termination_by m.length
decreasing_by
  simp [List.length_drop]
  omega

/-- `sha256.Sum256`: the 32-byte SHA-256 digest of a byte sequence. -/
def sha256Sum (msg : List Nat) : List Nat :=
  ((sha256Blocks shaH0 (padMessage msg)).map (bytesBE 4)).flatten

/-- One lowercase hexadecimal digit. -/
def hexDigit (n : Nat) : Char :=
  if n < 10 then Char.ofNat ('0'.toNat + n) else Char.ofNat ('a'.toNat + n - 10)

/-- Lowercase hexadecimal rendering of a byte sequence, two digits per byte:
the Go format `fmt.Sprintf("%x", hash)` applied to the digest array. -/
def hexEncode (bs : List Nat) : List Char :=
  (bs.map (fun b => [hexDigit (b / 16), hexDigit (b % 16)])).flatten

/-- The gauge label recorded for a file content: the lowercase hex SHA-256
digest of its bytes (characters taken as their code points, faithful for
the byte-for-byte reading of an ASCII or already-decoded file). -/
def fingerprintLabel (buf : List Char) : List Char :=
  hexEncode (sha256Sum (buf.map Char.toNat))

/-- The typed error returned by `LoadConfig`: `errors.Wrap(err, msg)` with
the wrap message and the underlying cause, one constructor per failure
kind.  `ρ` is the type of file-system error causes, `γ` the type of YAML
deserialization error causes. -/
inductive LoadError (ρ γ : Type) where
  | readFailure (msg : List Char) (cause : ρ)
  | parseFailure (msg : List Char) (cause : γ)
deriving DecidableEq

/-- The wrap message of main.go line 93. -/
def readErrMsg : List Char := "Error reading config file".toList

/-- The wrap message of main.go line 108. -/
def parseErrMsg : List Char := "Error parsing config file".toList

/-- The mutable state touched by `LoadConfig`: the Prometheus gauge vector
`configHash` (main.go lines 26-32), modelled as an association list from
label value (the `sha256` label) to gauge value, and the target
configuration `cfg` updated through the pointer passed in. -/
structure LoadState (Cfg : Type) where
  configHash : List (List Char × Nat)
  cfg : Cfg
deriving DecidableEq

/-- `LoadConfig` (main.go lines 90-112).  External collaborators are
explicit: `fs` is `os.ReadFile`, `env` is `os.Getenv` as used by
`expandEnv`, and `um` is `yaml.UnmarshalStrict`, which may update the
target configuration and report an error.  The four steps in source
order: read the file (failure wraps the cause as a read failure); reset
the gauge and record value 1 under the hex digest of the bytes exactly as
read; expand the buffer if and only if `expandENV` is set; deserialize
the (possibly expanded) buffer (failure wraps the cause as a parse
failure). -/
def LoadConfig {ρ γ Cfg : Type}
    (fs : List Char → Except ρ (List Char))
    (env : List Char → List Char)
    (um : List Char → Cfg → Cfg × Option γ)
    (filename : List Char) (expandENV : Bool)
    (st : LoadState Cfg) : LoadState Cfg × Option (LoadError ρ γ) :=
  match fs filename with
  | .error e => (st, some (.readFailure readErrMsg e))
  | .ok buf =>
    let gauge := [(fingerprintLabel buf, 1)]
    let buf2 := if expandENV then expandEnv env buf else buf
    match um buf2 st.cfg with
    | (cfg2, some e) => ({ configHash := gauge, cfg := cfg2 }, some (.parseFailure parseErrMsg e))
    | (cfg2, none) => ({ configHash := gauge, cfg := cfg2 }, none)

/-- Causes reported by the modelled strict YAML deserializer. -/
inductive YamlError where
  | unknownField (key : List Char)
  | malformed (info : List Char)
deriving DecidableEq

/-- Modelled from the spec: `yaml.UnmarshalStrict` of gopkg.in/yaml.v2, an
external library whose code is not part of this repository.  Per the spec,
strict deserialization decodes the document into fields and rejects any
field whose key is not part of the known target schema (`unknown
top-level or nested keys are rejected`); on success every decoded field is
merged into the target configuration.  `decode` stands for the YAML
scalar/tree decoding itself, `schema` for the set of field keys known to
the target configuration type, and `assign` for typed field assignment. -/
def strictUnmarshal {Cfg : Type}
    (decode : List Char → List (List Char × List Char))
    (schema : List (List Char))
    (assign : Cfg → List Char × List Char → Cfg)
    (buf : List Char) (cfg : Cfg) : Cfg × Option YamlError :=
  let fields := decode buf
  match fields.find? (fun f => ! schema.contains f.1) with
  | some f => (cfg, some (.unknownField f.1))
  | none => (fields.foldl assign cfg, none)

/-- The observable outcome of one run of `main` (main.go lines 35-66):
everything written to the diagnostic stream (`os.Stderr`), recorded as
(config file path, load error) pairs; the process exit, `some n` for
`os.Exit n` and `none` when `main` returns normally (process exit code
0); and the final loader state. -/
structure MainResult (ρ γ Cfg : Type) where
  stderr : List (List Char × LoadError ρ γ)
  exitCode : Option Nat
  final : LoadState Cfg
deriving DecidableEq

/-- The bootstrap orchestrator `main` (main.go lines 35-66).  `testMode` is
the package-level variable of line 23, set only by callers.  Defaults for
the target configuration have already been installed by
`flagext.RegisterFlags` (line 50), an external collaborator, so they enter
as `cfgDefaults`; the gauge starts empty.  When a config file was named,
the loader runs; on failure the error is reported to the diagnostic
stream together with the path, then the process exits with status 1
unless `testMode` is set, in which case `main` returns.  The trailing
re-registration of the two bootstrap options as ignored flags (lines
63-64) only touches the external default flag set and is not modelled. -/
def mainGo {ρ γ Cfg : Type} (testMode : Bool)
    (fs : List Char → Except ρ (List Char))
    (env : List Char → List Char)
    (um : List Char → Cfg → Cfg × Option γ)
    (args : List (List Char)) (cfgDefaults : Cfg) : MainResult ρ γ Cfg :=
  let opts := parseConfigFileParameter args
  let st0 : LoadState Cfg := { configHash := [], cfg := cfgDefaults }
  if opts.configFile ≠ [] then
    match LoadConfig fs env um opts.configFile opts.expandEnv st0 with
    | (st1, some e) =>
      { stderr := [(opts.configFile, e)]
        exitCode := if testMode then none else some 1
        final := st1 }
    | (st1, none) => { stderr := [], exitCode := none, final := st1 }
  else { stderr := [], exitCode := none, final := st0 }

/-- The command-line form `-config.file=value`. -/
def configFileEqArg (v : List Char) : List Char := "-config.file=".toList ++ v

/-- The command-line form `-config.file` with the value in the next
argument. -/
def configFileArg : List Char := "-config.file".toList

/-- The command-line form `-config.expand-env`. -/
def expandEnvArg : List Char := "-config.expand-env".toList

theorem splitFirstEq_append (a b : List Char) (h : '=' ∉ a) :
    splitFirstEq (a ++ '=' :: b) = (a, some b) := by
  induction a with
  | nil => simp [splitFirstEq]
  | cons c t ih =>
    have hc : c ≠ '=' := by
      intro hec
      exact h (hec ▸ List.mem_cons_self c t)
    have ht : '=' ∉ t := fun hm => h (List.mem_cons_of_mem c hm)
    simp [splitFirstEq, hc, ih ht]

theorem parseFlagToken_cfEq (v : List Char) :
    parseFlagToken (configFileEqArg v) = some (configFileOption, some v) := by
  have hs : configFileEqArg v = '-' :: 'c' :: ("onfig.file".toList ++ '=' :: v) := by
    simp [configFileEqArg]
  have hsplit : splitFirstEq ("onfig.file".toList ++ '=' :: v) =
      ("onfig.file".toList, some v) :=
    splitFirstEq_append _ _ (by decide)
  rw [hs]
  simp at hsplit
  simp [parseFlagToken, hsplit]
  decide

theorem parseFlagToken_cfBare :
    parseFlagToken configFileArg = some (configFileOption, none) := by decide

theorem parseFlagToken_ee :
    parseFlagToken expandEnvArg = some (configExpandENV, none) := by decide

theorem fsParse_cons_inert (st : BootstrapOptions) (s : List Char) (l : List (List Char))
    (h : inert s = true) : fsParse st (s :: l) = st := by
  unfold inert at h
  cases hp : parseFlagToken s with
  | none => rw [fsParse.eq_def]; simp [hp]
  | some nv =>
    obtain ⟨n, val⟩ := nv
    rw [hp] at h
    simp only [Bool.and_eq_true, decide_eq_true_eq] at h
    rw [fsParse.eq_def]
    simp [hp, h.1, h.2]

theorem fsParse_head_inert (st : BootstrapOptions) (l : List (List Char))
    (h : ∀ s, l.head? = some s → inert s = true) : fsParse st l = st := by
  cases l with
  | nil => rw [fsParse.eq_def]
  | cons s t => exact fsParse_cons_inert st s t (h s rfl)

theorem fsParse_cfEq (st : BootstrapOptions) (v : List Char) (l : List (List Char)) :
    fsParse st (configFileEqArg v :: l) = fsParse { st with configFile := v } l := by
  have hp := parseFlagToken_cfEq v
  rw [fsParse.eq_def]
  simp [configFileEqArg] at hp
  simp [configFileEqArg, hp, show configFileOption ≠ configExpandENV from by decide]

theorem fsParse_cfBare (st : BootstrapOptions) (v : List Char) (l : List (List Char)) :
    fsParse st (configFileArg :: v :: l) = fsParse { st with configFile := v } l := by
  have hp := parseFlagToken_cfBare
  rw [fsParse.eq_def]
  simp [configFileArg] at hp
  simp [configFileArg, hp, show configFileOption ≠ configExpandENV from by decide]

theorem fsParse_ee (st : BootstrapOptions) (l : List (List Char)) :
    fsParse st (expandEnvArg :: l) = fsParse { st with expandEnv := true } l := by
  have hp := parseFlagToken_ee
  rw [fsParse.eq_def]
  simp [expandEnvArg] at hp
  simp [expandEnvArg, hp]

theorem parseLoop_cons (st : BootstrapOptions) (a : List Char) (l : List (List Char)) :
    parseLoop st (a :: l) = parseLoop (fsParse st (a :: l)) l := rfl

theorem head_inert_of_all {l : List (List Char)} (h : ∀ s ∈ l, inert s = true) :
    ∀ s, l.head? = some s → inert s = true := by
  intro s hs
  cases l with
  | nil => cases hs
  | cons a t =>
    simp only [List.head?_cons, Option.some.injEq] at hs
    exact hs ▸ h a (List.mem_cons_self a t)

theorem parseLoop_skips_inert :
    ∀ (A : List (List Char)), (∀ s ∈ A, inert s = true) →
      ∀ (rest : List (List Char)) (st : BootstrapOptions),
        parseLoop st (A ++ rest) = parseLoop st rest := by
  intro A
  induction A with
  | nil => intro _ rest st; rfl
  | cons a t ih =>
    intro hA rest st
    have ha : inert a = true := hA a (List.mem_cons_self a t)
    have ht : ∀ s ∈ t, inert s = true := fun s hs => hA s (List.mem_cons_of_mem a hs)
    calc parseLoop st ((a :: t) ++ rest)
        = parseLoop (fsParse st (a :: (t ++ rest))) (t ++ rest) := rfl
      _ = parseLoop st (t ++ rest) := by rw [fsParse_cons_inert st a _ ha]
      _ = parseLoop st rest := ih ht rest st

theorem parseLoop_inert (l : List (List Char)) (h : ∀ s ∈ l, inert s = true)
    (st : BootstrapOptions) : parseLoop st l = st := by
  simpa using parseLoop_skips_inert l h [] st

theorem parseLoop_cfEq_tail (v : List Char) (C : List (List Char))
    (hC : ∀ s ∈ C, inert s = true) :
    ∀ (B : List (List Char)), (∀ s ∈ B, inert s = true) →
      ∀ st, parseLoop st (B ++ configFileEqArg v :: C) = { st with configFile := v } := by
  intro B
  induction B with
  | nil =>
    intro _ st
    calc parseLoop st (configFileEqArg v :: C)
        = parseLoop (fsParse st (configFileEqArg v :: C)) C := rfl
      _ = parseLoop { st with configFile := v } C := by
          rw [fsParse_cfEq, fsParse_head_inert _ _ (head_inert_of_all hC)]
      _ = { st with configFile := v } := parseLoop_inert C hC _
  | cons b t ih =>
    intro hB st
    have hb : inert b = true := hB b (List.mem_cons_self b t)
    have ht : ∀ s ∈ t, inert s = true := fun s hs => hB s (List.mem_cons_of_mem b hs)
    calc parseLoop st ((b :: t) ++ configFileEqArg v :: C)
        = parseLoop (fsParse st (b :: (t ++ configFileEqArg v :: C)))
            (t ++ configFileEqArg v :: C) := rfl
      _ = parseLoop st (t ++ configFileEqArg v :: C) := by
          rw [fsParse_cons_inert st b _ hb]
      _ = { st with configFile := v } := ih ht st

theorem parseLoop_cfBare_tail (v : List Char) (hv : inert v = true) (C : List (List Char))
    (hC : ∀ s ∈ C, inert s = true) :
    ∀ (B : List (List Char)), (∀ s ∈ B, inert s = true) →
      ∀ st, parseLoop st (B ++ configFileArg :: v :: C) = { st with configFile := v } := by
  intro B
  induction B with
  | nil =>
    intro _ st
    calc parseLoop st (configFileArg :: v :: C)
        = parseLoop (fsParse st (configFileArg :: v :: C)) (v :: C) := rfl
      _ = parseLoop { st with configFile := v } (v :: C) := by
          rw [fsParse_cfBare, fsParse_head_inert _ _ (head_inert_of_all hC)]
      _ = parseLoop (fsParse { st with configFile := v } (v :: C)) C := rfl
      _ = parseLoop { st with configFile := v } C := by
          rw [fsParse_cons_inert _ v _ hv]
      _ = { st with configFile := v } := parseLoop_inert C hC _
  | cons b t ih =>
    intro hB st
    have hb : inert b = true := hB b (List.mem_cons_self b t)
    have ht : ∀ s ∈ t, inert s = true := fun s hs => hB s (List.mem_cons_of_mem b hs)
    calc parseLoop st ((b :: t) ++ configFileArg :: v :: C)
        = parseLoop (fsParse st (b :: (t ++ configFileArg :: v :: C)))
            (t ++ configFileArg :: v :: C) := rfl
      _ = parseLoop st (t ++ configFileArg :: v :: C) := by
          rw [fsParse_cons_inert st b _ hb]
      _ = { st with configFile := v } := ih ht st

theorem parseLoop_ee_tail (C : List (List Char)) (hC : ∀ s ∈ C, inert s = true) :
    ∀ (B : List (List Char)), (∀ s ∈ B, inert s = true) →
      ∀ st, parseLoop st (B ++ expandEnvArg :: C) = { st with expandEnv := true } := by
  intro B
  induction B with
  | nil =>
    intro _ st
    calc parseLoop st (expandEnvArg :: C)
        = parseLoop (fsParse st (expandEnvArg :: C)) C := rfl
      _ = parseLoop { st with expandEnv := true } C := by
          rw [fsParse_ee, fsParse_head_inert _ _ (head_inert_of_all hC)]
      _ = { st with expandEnv := true } := parseLoop_inert C hC _
  | cons b t ih =>
    intro hB st
    have hb : inert b = true := hB b (List.mem_cons_self b t)
    have ht : ∀ s ∈ t, inert s = true := fun s hs => hB s (List.mem_cons_of_mem b hs)
    calc parseLoop st ((b :: t) ++ expandEnvArg :: C)
        = parseLoop (fsParse st (b :: (t ++ expandEnvArg :: C)))
            (t ++ expandEnvArg :: C) := rfl
      _ = parseLoop st (t ++ expandEnvArg :: C) := by
          rw [fsParse_cons_inert st b _ hb]
      _ = { st with expandEnv := true } := ih ht st

theorem fsParse_through_inert_to_ee (B C : List (List Char))
    (hB : ∀ s ∈ B, inert s = true) (hC : ∀ s ∈ C, inert s = true)
    (st : BootstrapOptions) :
    fsParse st (B ++ expandEnvArg :: C) = st ∨
    fsParse st (B ++ expandEnvArg :: C) = { st with expandEnv := true } := by
  cases B with
  | nil =>
    right
    rw [List.nil_append, fsParse_ee, fsParse_head_inert _ _ (head_inert_of_all hC)]
  | cons b t =>
    left
    exact fsParse_cons_inert st b _ (hB b (List.mem_cons_self b t))

theorem fsParse_through_inert_to_cfEq (v : List Char) (B C : List (List Char))
    (hB : ∀ s ∈ B, inert s = true) (hC : ∀ s ∈ C, inert s = true)
    (st : BootstrapOptions) :
    fsParse st (B ++ configFileEqArg v :: C) = st ∨
    fsParse st (B ++ configFileEqArg v :: C) = { st with configFile := v } := by
  cases B with
  | nil =>
    right
    rw [List.nil_append, fsParse_cfEq, fsParse_head_inert _ _ (head_inert_of_all hC)]
  | cons b t =>
    left
    exact fsParse_cons_inert st b _ (hB b (List.mem_cons_self b t))

/-- C1: for every argument list in which the config-file string option
and/or the expand-env boolean option appear at any position (start,
middle, end, or interleaved with arguments unknown to the bootstrap
parser, i.e. inert for it), `parseConfigFileParameter` returns exactly
the path value and boolean value supplied on the command line.  The
five conjuncts cover: both options with the file option first; both
options with the boolean first; only the file option (inline `=` form);
only the boolean option; and the file option with its value in the
following argument. -/
theorem c1_locator_recovers_options (A B C : List (List Char)) (v : List Char)
    (hA : ∀ s ∈ A, inert s = true) (hB : ∀ s ∈ B, inert s = true)
    (hC : ∀ s ∈ C, inert s = true) :
    parseConfigFileParameter (A ++ configFileEqArg v :: (B ++ expandEnvArg :: C)) =
      { configFile := v, expandEnv := true } ∧
    parseConfigFileParameter (A ++ expandEnvArg :: (B ++ configFileEqArg v :: C)) =
      { configFile := v, expandEnv := true } ∧
    parseConfigFileParameter (A ++ configFileEqArg v :: B) =
      { configFile := v, expandEnv := false } ∧
    parseConfigFileParameter (A ++ expandEnvArg :: B) =
      { configFile := [], expandEnv := true } ∧
    (inert v = true →
      parseConfigFileParameter (A ++ configFileArg :: v :: B) =
        { configFile := v, expandEnv := false }) := by
  refine ⟨?_, ?_, ?_, ?_, ?_⟩
  · simp only [parseConfigFileParameter]
    rw [parseLoop_skips_inert A hA, parseLoop_cons, fsParse_cfEq]
    rcases fsParse_through_inert_to_ee B C hB hC
        { configFile := v, expandEnv := false } with h2 | h2 <;>
      rw [h2, parseLoop_ee_tail C hC B hB]
  · simp only [parseConfigFileParameter]
    rw [parseLoop_skips_inert A hA, parseLoop_cons, fsParse_ee]
    rcases fsParse_through_inert_to_cfEq v B C hB hC
        { configFile := [], expandEnv := true } with h2 | h2 <;>
      rw [h2, parseLoop_cfEq_tail v C hC B hB]
  · simp only [parseConfigFileParameter]
    rw [parseLoop_skips_inert A hA]
    exact parseLoop_cfEq_tail v B hB [] (by intro s hs; cases hs) _
  · simp only [parseConfigFileParameter]
    rw [parseLoop_skips_inert A hA]
    exact parseLoop_ee_tail B hB [] (by intro s hs; cases hs) _
  · intro hv
    simp only [parseConfigFileParameter]
    rw [parseLoop_skips_inert A hA]
    exact parseLoop_cfBare_tail v hv B hB [] (by intro s hs; cases hs) _

theorem c1_witness :
    (∀ s ∈ (["-target=all".toList] : List (List Char)), inert s = true) ∧
    (∀ s ∈ (["-verbose".toList] : List (List Char)), inert s = true) ∧
    (∀ s ∈ (["ingester".toList] : List (List Char)), inert s = true) ∧
    parseConfigFileParameter
      (["-target=all".toList] ++ configFileEqArg "/etc/cortex.yaml".toList ::
        (["-verbose".toList] ++ expandEnvArg :: ["ingester".toList])) =
      { configFile := "/etc/cortex.yaml".toList, expandEnv := true } :=
  ⟨by decide, by decide, by decide,
   (c1_locator_recovers_options ["-target=all".toList] ["-verbose".toList]
      ["ingester".toList] "/etc/cortex.yaml".toList
      (by decide) (by decide) (by decide)).1⟩

/-- C9: the shift-and-retry loop of `parseConfigFileParameter` terminates on
every argument list — the argument slice strictly shrinks each iteration,
so a fuel budget equal to the list length always suffices — and on the
empty argument list the function returns the empty path and a false
expansion flag. -/
theorem c9_locator_terminates :
    (∀ (st : BootstrapOptions) (args : List (List Char)),
        parseLoopFuel args.length st args = some (parseLoop st args)) ∧
    parseConfigFileParameter [] = { configFile := [], expandEnv := false } := by
  constructor
  · intro st args
    induction args generalizing st with
    | nil => rfl
    | cons a rest ih => exact ih (fsParse st (a :: rest))
  · rfl

theorem braceSplit_none (t : List Char) (h : '}' ∉ t) : braceSplit t = none := by
  induction t with
  | nil => rfl
  | cons c r ih =>
    have hc : c ≠ '}' := fun he => h (he ▸ List.mem_cons_self c r)
    have hr : '}' ∉ r := fun hm => h (List.mem_cons_of_mem c hm)
    simp [braceSplit, hc, ih hr]

theorem braceSplit_append (p rest : List Char) (h : '}' ∉ p) :
    braceSplit (p ++ '}' :: rest) = some (p, p.length) := by
  induction p with
  | nil => simp [braceSplit]
  | cons c r ih =>
    have hc : c ≠ '}' := fun he => h (he ▸ List.mem_cons_self c r)
    have hr : '}' ∉ r := fun hm => h (List.mem_cons_of_mem c hm)
    simp [braceSplit, hc, ih hr]

theorem getShellName_braced (name rest : List Char) (hne : name ≠ [])
    (h : '}' ∉ name) :
    getShellName ('{' :: (name ++ '}' :: rest)) = (name, name.length + 2) := by
  cases name with
  | nil => exact absurd rfl hne
  | cons n0 nt =>
    cases nt with
    | nil =>
      have h0 : n0 ≠ '}' := fun he => h (by simp [he])
      by_cases hsp : isShellSpecialVar n0
      · simp [getShellName, hsp]
      · have hb : braceSplit (n0 :: '}' :: rest) = some ([n0], 1) := by
          simp [braceSplit, h0]
        simp [getShellName, hsp, hb]
    | cons n1 nt2 =>
      have hn1 : n1 ≠ '}' := fun he => h (by simp [he])
      have hb := braceSplit_append (n0 :: n1 :: nt2) rest h
      simp only [List.cons_append] at hb
      simp [getShellName, hn1, hb]

theorem takeWhile_all_append (p rest : List Char)
    (hp : ∀ c ∈ p, isAlphaNum c = true)
    (hrest : ∀ c, rest.head? = some c → isAlphaNum c = false) :
    (p ++ rest).takeWhile isAlphaNum = p := by
  induction p with
  | nil =>
    cases rest with
    | nil => rfl
    | cons c r => simp [List.takeWhile_cons, hrest c rfl]
  | cons c r ih =>
    have hc := hp c (List.mem_cons_self c r)
    simp [List.takeWhile_cons, hc, ih (fun d hd => hp d (List.mem_cons_of_mem c hd))]

theorem getShellName_bare (name rest : List Char) (hne : name ≠ [])
    (hall : ∀ c ∈ name, isAlphaNum c = true)
    (hhead : ∀ c, name.head? = some c → isShellSpecialVar c = false)
    (hrest : ∀ c, rest.head? = some c → isAlphaNum c = false) :
    getShellName (name ++ rest) = (name, name.length) := by
  cases name with
  | nil => exact absurd rfl hne
  | cons n0 nt =>
    have h0 : isAlphaNum n0 = true := hall n0 (List.mem_cons_self n0 nt)
    have hbrace : n0 ≠ '{' := by
      intro he
      rw [he] at h0
      exact absurd h0 (by decide)
    have hsp : isShellSpecialVar n0 = false := hhead n0 rfl
    have htw : ((n0 :: nt) ++ rest).takeWhile isAlphaNum = n0 :: nt :=
      takeWhile_all_append _ _ hall hrest
    simp only [List.cons_append] at htw
    simp [getShellName, hbrace, hsp, htw]

theorem expandGo_nil (m : List Char → List Char) : expandGo m [] = [] := by
  rw [expandGo.eq_def]

theorem expandGo_cons_ne (m : List Char → List Char) (c : Char) (l : List Char)
    (hc : c ≠ '$') : expandGo m (c :: l) = c :: expandGo m l := by
  rw [expandGo.eq_def]
  simp [hc]

theorem expandGo_dollar_last (m : List Char → List Char) : expandGo m ['$'] = ['$'] := by
  rw [expandGo.eq_def]
  simp [expandGo_nil]

theorem expandGo_eat (m : List Char → List Char) (rest : List Char) (w : Nat)
    (hg : getShellName rest = ([], w)) (hw : 0 < w) (hne : rest ≠ []) :
    expandGo m ('$' :: rest) = expandGo m (rest.drop w) := by
  rw [expandGo.eq_def]
  simp [hne, hg, hw]

theorem expandGo_keep (m : List Char → List Char) (rest : List Char)
    (hg : getShellName rest = ([], 0)) (hne : rest ≠ []) :
    expandGo m ('$' :: rest) = '$' :: expandGo m rest := by
  rw [expandGo.eq_def]
  simp [hne, hg]

theorem expandGo_subst (m : List Char → List Char) (rest name : List Char) (w : Nat)
    (hg : getShellName rest = (name, w)) (hname : name ≠ []) (hne : rest ≠ []) :
    expandGo m ('$' :: rest) = m name ++ expandGo m (rest.drop w) := by
  rw [expandGo.eq_def]
  simp [hne, hg, hname]

theorem splitFirstColon_notMem (k : List Char) (h : ':' ∉ k) :
    splitFirstColon k = (k, none) := by
  induction k with
  | nil => rfl
  | cons c t ih =>
    have hc : c ≠ ':' := fun he => h (he ▸ List.mem_cons_self c t)
    have ht : ':' ∉ t := fun hm => h (List.mem_cons_of_mem c hm)
    simp [splitFirstColon, hc, ih ht]

theorem splitFirstColon_append (k d : List Char) (h : ':' ∉ k) :
    splitFirstColon (k ++ ':' :: d) = (k, some d) := by
  induction k with
  | nil => simp [splitFirstColon]
  | cons c t ih =>
    have hc : c ≠ ':' := fun he => h (he ▸ List.mem_cons_self c t)
    have ht : ':' ∉ t := fun hm => h (List.mem_cons_of_mem c hm)
    simp [splitFirstColon, hc, ih ht]

theorem expandMapping_with_default (env : List Char → List Char) (k d : List Char)
    (h : ':' ∉ k) :
    expandMapping env (k ++ ':' :: d) = if env k = [] then d else env k := by
  by_cases he : env k = [] <;> simp [expandMapping, splitFirstColon_append k d h, he]

theorem expandMapping_plain (env : List Char → List Char) (k : List Char)
    (h : ':' ∉ k) : expandMapping env k = env k := by
  by_cases he : env k = [] <;> simp [expandMapping, splitFirstColon_notMem k h, he]

theorem drop_braced (inner rest : List Char) :
    (('{' :: inner) ++ ('}' :: rest)).drop (inner.length + 2) = rest := by
  have hsplit : ('{' :: inner) ++ ('}' :: rest) = (('{' :: inner) ++ ['}']) ++ rest := by
    simp
  have hlen : (('{' :: inner) ++ ['}']).length = inner.length + 2 := by simp
  rw [hsplit, ← hlen, List.drop_left]

theorem expand_braced_default (env : List Char → List Char) (name dv rest : List Char)
    (h1 : ':' ∉ name) (h2 : '}' ∉ name) (h3 : '}' ∉ dv) :
    expandEnv env ('$' :: '{' :: ((name ++ ':' :: dv) ++ '}' :: rest)) =
      (if env name = [] then dv else env name) ++ expandEnv env rest := by
  have hbr : '}' ∉ name ++ ':' :: dv := by
    intro hm
    rcases List.mem_append.mp hm with hm | hm
    · exact h2 hm
    · rcases List.mem_cons.mp hm with hm | hm
      · exact absurd hm (by decide)
      · exact h3 hm
  have hg := getShellName_braced (name ++ ':' :: dv) rest (by simp) hbr
  have hdrop := drop_braced (name ++ ':' :: dv) rest
  simp only [List.cons_append, List.append_assoc] at hdrop
  simp only [expandEnv]
  rw [expandGo_subst _ _ _ _ hg (by simp) (by simp)]
  simp only [List.cons_append, List.append_assoc]
  rw [hdrop, expandMapping_with_default env name dv h1]

theorem expand_braced_plain (env : List Char → List Char) (name rest : List Char)
    (hne : name ≠ []) (h1 : ':' ∉ name) (h2 : '}' ∉ name) :
    expandEnv env ('$' :: '{' :: (name ++ '}' :: rest)) =
      env name ++ expandEnv env rest := by
  have hg := getShellName_braced name rest hne h2
  have hdrop := drop_braced name rest
  simp only [List.cons_append, List.append_assoc] at hdrop
  simp only [expandEnv]
  rw [expandGo_subst _ _ _ _ hg hne (by simp)]
  rw [hdrop, expandMapping_plain env name h1]

theorem expand_bare (env : List Char → List Char) (name rest : List Char)
    (hne : name ≠ []) (hall : ∀ c ∈ name, isAlphaNum c = true)
    (hhead : ∀ c, name.head? = some c → isShellSpecialVar c = false)
    (hrest : ∀ c, rest.head? = some c → isAlphaNum c = false) :
    expandEnv env ('$' :: (name ++ rest)) = env name ++ expandEnv env rest := by
  have hg := getShellName_bare name rest hne hall hhead hrest
  have hcolon : ':' ∉ name := by
    intro hm
    exact absurd (hall ':' hm) (by decide)
  have happne : name ++ rest ≠ [] := by
    intro he
    exact hne (List.append_eq_nil.mp he).1
  simp only [expandEnv]
  rw [expandGo_subst _ _ _ _ hg hne happne, List.drop_left,
    expandMapping_plain env name hcolon]

theorem expand_eat_unterminated (env : List Char → List Char) (t : List Char)
    (h : '}' ∉ t) : expandEnv env ('$' :: '{' :: t) = expandEnv env t := by
  have hb := braceSplit_none t h
  have hg : getShellName ('{' :: t) = ([], 1) := by
    cases t with
    | nil => simp [getShellName, braceSplit]
    | cons c1 t2 =>
      cases t2 with
      | nil => simp [getShellName, hb]
      | cons c2 t3 =>
        have hc2 : c2 ≠ '}' := fun he => h (by simp [he])
        simp [getShellName, hb, hc2]
  simp only [expandEnv]
  rw [expandGo_eat _ _ 1 hg (by omega) (by simp)]
  rfl

theorem expand_empty_braces (env : List Char → List Char) (rest : List Char) :
    expandEnv env ('$' :: '{' :: '}' :: rest) = expandEnv env rest := by
  have hg : getShellName ('{' :: '}' :: rest) = ([], 2) := by
    cases rest with
    | nil => simp [getShellName, braceSplit]
    | cons r rs => simp [getShellName, braceSplit, show isShellSpecialVar '}' = false from by decide]
  simp only [expandEnv]
  rw [expandGo_eat _ _ 2 hg (by omega) (by simp)]
  rfl

theorem expand_keep_dollar (env : List Char → List Char) (c : Char) (l : List Char)
    (h1 : c ≠ '{') (h2 : isShellSpecialVar c = false) (h3 : isAlphaNum c = false) :
    expandEnv env ('$' :: c :: l) = '$' :: c :: expandEnv env l := by
  have hg : getShellName (c :: l) = ([], 0) := by
    simp [getShellName, h1, h2, List.takeWhile_cons, h3]
  have hdollar : c ≠ '$' := by
    intro he
    rw [he] at h2
    exact absurd h2 (by decide)
  simp only [expandEnv]
  rw [expandGo_keep _ _ hg (by simp), expandGo_cons_ne _ c l hdollar]


/-- C6: for every recognized placeholder, `expandEnv` splits the inner token
on the first `':'` into a name and optional default and substitutes the
environment value when it is non-empty, the default verbatim when the
environment value is empty and a default was supplied, and the empty
string otherwise; the bare `$`-form behaves identically to the braced form
for a bare name.  Conjuncts: braced placeholder with a default; braced
placeholder without a default (covering the non-empty-value case and the
empty-value/no-default case through `env name` itself); bare placeholder;
and the bare/braced agreement. -/
theorem c6_placeholder_resolution (env : List Char → List Char)
    (name dv rest : List Char) :
    (':' ∉ name → '}' ∉ name → '}' ∉ dv →
      expandEnv env ('$' :: '{' :: ((name ++ ':' :: dv) ++ '}' :: rest)) =
        (if env name = [] then dv else env name) ++ expandEnv env rest) ∧
    (name ≠ [] → ':' ∉ name → '}' ∉ name →
      expandEnv env ('$' :: '{' :: (name ++ '}' :: rest)) =
        env name ++ expandEnv env rest) ∧
    (name ≠ [] → (∀ c ∈ name, isAlphaNum c = true) →
      (∀ c, name.head? = some c → isShellSpecialVar c = false) →
      (∀ c, rest.head? = some c → isAlphaNum c = false) →
      expandEnv env ('$' :: (name ++ rest)) = env name ++ expandEnv env rest) ∧
    (name ≠ [] → (∀ c ∈ name, isAlphaNum c = true) →
      (∀ c, name.head? = some c → isShellSpecialVar c = false) →
      (∀ c, rest.head? = some c → isAlphaNum c = false) →
      expandEnv env ('$' :: (name ++ rest)) =
        expandEnv env ('$' :: '{' :: (name ++ '}' :: rest))) := by
  refine ⟨expand_braced_default env name dv rest,
    fun hne h1 h2 => expand_braced_plain env name rest hne h1 h2,
    fun hne hall hhead hrest => expand_bare env name rest hne hall hhead hrest,
    fun hne hall hhead hrest => ?_⟩
  have hc : ':' ∉ name := fun hm => absurd (hall ':' hm) (by decide)
  have hb : '}' ∉ name := fun hm => absurd (hall '}' hm) (by decide)
  rw [expand_bare env name rest hne hall hhead hrest,
    expand_braced_plain env name rest hne hc hb]

theorem c6_witness :
    (':' ∉ "FOO".toList) ∧ ('}' ∉ "FOO".toList) ∧ ('}' ∉ "bar".toList) ∧
    expandEnv (fun _ => []) ('$' :: '{' :: (("FOO".toList ++ ':' :: "bar".toList) ++ '}' :: [])) =
      (if (fun _ : List Char => ([] : List Char)) "FOO".toList = [] then "bar".toList
       else (fun _ : List Char => ([] : List Char)) "FOO".toList) ++
        expandEnv (fun _ => []) [] :=
  ⟨by decide, by decide, by decide,
   (c6_placeholder_resolution (fun _ => []) "FOO".toList "bar".toList []).1
     (by decide) (by decide) (by decide)⟩

/-- C7 counterexample: the claim says any malformed placeholder syntax
appears in the output verbatim, unchanged.  On the input consisting of the
two characters dollar and open-brace — an unterminated placeholder —
`expandEnv` instead deletes both characters (os.Expand `eats` invalid
syntax), so the output is empty rather than the verbatim input. -/
theorem c7_counterexample :
    expandEnv (fun _ => []) ('$' :: '{' :: []) = [] ∧
    ('$' :: '{' :: ([] : List Char)) ≠ [] := by
  constructor
  · rw [expand_eat_unterminated (fun _ => []) [] (by simp)]
    exact expandGo_nil _
  · simp

/-- C7 (amended): `expandEnv` is total — it is a total function returning an
output for every input — and a `'$'` that does not begin a recognized
placeholder is passed through verbatim: a trailing `'$'` stays, and a `'$'`
followed by a character that cannot start a name stays together with that
character.  However, an unterminated open-brace placeholder and the empty
braced placeholder are removed from the output (their characters are
consumed and nothing is substituted), not passed through verbatim. -/
theorem c7_expander_malformed_behavior (env : List Char → List Char) :
    expandEnv env ['$'] = ['$'] ∧
    (∀ (c : Char) (l : List Char), c ≠ '{' → isShellSpecialVar c = false →
      isAlphaNum c = false →
      expandEnv env ('$' :: c :: l) = '$' :: c :: expandEnv env l) ∧
    (∀ t : List Char, '}' ∉ t → expandEnv env ('$' :: '{' :: t) = expandEnv env t) ∧
    (∀ rest : List Char, expandEnv env ('$' :: '{' :: '}' :: rest) = expandEnv env rest) :=
  ⟨expandGo_dollar_last _,
   fun c l h1 h2 h3 => expand_keep_dollar env c l h1 h2 h3,
   fun t h => expand_eat_unterminated env t h,
   fun rest => expand_empty_braces env rest⟩

theorem c7_witness :
    (' ' ≠ '{') ∧ isShellSpecialVar ' ' = false ∧ isAlphaNum ' ' = false ∧
    expandEnv (fun _ => []) ('$' :: ' ' :: []) = '$' :: ' ' :: expandEnv (fun _ => []) [] :=
  ⟨by decide, by decide, by decide,
   (c7_expander_malformed_behavior (fun _ => [])).2.1 ' ' [] (by decide) (by decide)
     (by decide)⟩

theorem loadConfig_gauge {ρ γ Cfg : Type}
    (fs : List Char → Except ρ (List Char)) (env : List Char → List Char)
    (um : List Char → Cfg → Cfg × Option γ)
    (filename : List Char) (expandENV : Bool) (st : LoadState Cfg)
    (buf : List Char) (h : fs filename = .ok buf) :
    (LoadConfig fs env um filename expandENV st).1.configHash =
      [(fingerprintLabel buf, 1)] := by
  rcases hu : um (if expandENV then expandEnv env buf else buf) st.cfg with ⟨c, e⟩
  cases e <;> simp [LoadConfig, h, hu]

/-- C2: the fingerprint recorded by `LoadConfig` is the digest of the bytes
exactly as read from disk.  Two runs on the same file bytes, one with
expansion enabled and one with it disabled — under arbitrary and possibly
different environments, deserializers, file names, and prior states —
record the identical fingerprint label. -/
theorem c2_fingerprint_expansion_independent {ρ₁ ρ₂ γ₁ γ₂ Cfg₁ Cfg₂ : Type}
    (fs₁ : List Char → Except ρ₁ (List Char)) (fs₂ : List Char → Except ρ₂ (List Char))
    (env₁ env₂ : List Char → List Char)
    (um₁ : List Char → Cfg₁ → Cfg₁ × Option γ₁)
    (um₂ : List Char → Cfg₂ → Cfg₂ × Option γ₂)
    (n₁ n₂ buf : List Char) (st₁ : LoadState Cfg₁) (st₂ : LoadState Cfg₂)
    (h₁ : fs₁ n₁ = .ok buf) (h₂ : fs₂ n₂ = .ok buf) :
    (LoadConfig fs₁ env₁ um₁ n₁ true st₁).1.configHash =
      (LoadConfig fs₂ env₂ um₂ n₂ false st₂).1.configHash := by
  rw [loadConfig_gauge _ _ _ _ _ _ _ h₁, loadConfig_gauge _ _ _ _ _ _ _ h₂]

theorem c2_witness :
    ((fun _ : List Char => (Except.ok "greeting: hi".toList : Except Unit (List Char)))
        "cfg.yaml".toList = Except.ok "greeting: hi".toList) ∧
    (LoadConfig (fun _ => (Except.ok "greeting: hi".toList : Except Unit (List Char)))
        (fun _ => "X".toList)
        (fun _ (c : Unit) => (c, (none : Option Unit))) "cfg.yaml".toList true
        ⟨[], ()⟩).1.configHash =
      (LoadConfig (fun _ => (Except.ok "greeting: hi".toList : Except Unit (List Char)))
        (fun _ => [])
        (fun _ (c : Unit) => (c, (none : Option Unit))) "cfg.yaml".toList false
        ⟨[], ()⟩).1.configHash :=
  ⟨rfl,
   c2_fingerprint_expansion_independent _ _ _ _ _ _ "cfg.yaml".toList "cfg.yaml".toList
     "greeting: hi".toList ⟨[], ()⟩ ⟨[], ()⟩ rfl rfl⟩

/-- C3 counterexample: the claim says that whenever `LoadConfig` is invoked
with a non-empty path, steps 1 (read) and 2 (fingerprint computation and
publication) always execute.  Invoked with the non-empty path
`cfg.yaml` on a file system where the read fails, no fingerprint is
published: the gauge stays empty. -/
theorem c3_counterexample :
    ("cfg.yaml".toList ≠ []) ∧
    (LoadConfig (fun _ => (Except.error () : Except Unit (List Char))) (fun _ => [])
        (fun _ (c : Unit) => (c, (none : Option Unit)))
        "cfg.yaml".toList false ⟨[], ()⟩).1.configHash = [] :=
  ⟨by decide, rfl⟩

/-- C3 (amended): the read (step 1) always executes; whenever it succeeds,
the fingerprint is computed and published unconditionally before
deserialization is attempted — whatever the deserializer then does — so
that when `LoadConfig` returns a ParseFailure error the fingerprint of the
file that was read remains recorded. -/
theorem c3_fingerprint_published_before_parse {ρ γ Cfg : Type}
    (fs : List Char → Except ρ (List Char)) (env : List Char → List Char)
    (um : List Char → Cfg → Cfg × Option γ)
    (filename : List Char) (expandENV : Bool) (st : LoadState Cfg)
    (buf : List Char) (h : fs filename = .ok buf) :
    (LoadConfig fs env um filename expandENV st).1.configHash =
      [(fingerprintLabel buf, 1)] ∧
    (∀ (cfg2 : Cfg) (e : γ),
      um (if expandENV then expandEnv env buf else buf) st.cfg = (cfg2, some e) →
      LoadConfig fs env um filename expandENV st =
        ({ configHash := [(fingerprintLabel buf, 1)], cfg := cfg2 },
         some (.parseFailure parseErrMsg e))) := by
  refine ⟨loadConfig_gauge fs env um filename expandENV st buf h, ?_⟩
  intro cfg2 e hu
  simp [LoadConfig, h, hu]

theorem c3_witness :
    ((fun _ : List Char => (Except.ok "a: 1".toList : Except Unit (List Char)))
        "cfg.yaml".toList = Except.ok "a: 1".toList) ∧
    ((fun _ (c : Unit) => (c, (some () : Option Unit)))
        (if false then expandEnv (fun _ => []) "a: 1".toList else "a: 1".toList) () =
      ((), some ())) ∧
    LoadConfig (fun _ => (Except.ok "a: 1".toList : Except Unit (List Char)))
        (fun _ => [])
        (fun _ (c : Unit) => (c, (some () : Option Unit))) "cfg.yaml".toList false
        ⟨[], ()⟩ =
      ({ configHash := [(fingerprintLabel "a: 1".toList, 1)], cfg := () },
       some (@LoadError.parseFailure Unit Unit parseErrMsg ())) :=
  ⟨rfl, rfl,
   (c3_fingerprint_published_before_parse _ _ _ "cfg.yaml".toList false ⟨[], ()⟩
     "a: 1".toList rfl).2 () () rfl⟩

/-- C8: after every fingerprint publication the gauge holds exactly one
active label — the hex digest of the most recently read file — with value
fixed at 1; publication clears all prior labels first (the initial gauge
contents `st.configHash` are arbitrary and do not survive), so repeated
loads never accumulate stale labels, as the second conjunct shows for two
successive loads. -/
theorem c8_single_active_fingerprint {ρ₁ ρ₂ γ₁ γ₂ Cfg : Type}
    (fs₁ : List Char → Except ρ₁ (List Char)) (fs₂ : List Char → Except ρ₂ (List Char))
    (env₁ env₂ : List Char → List Char)
    (um₁ : List Char → Cfg → Cfg × Option γ₁) (um₂ : List Char → Cfg → Cfg × Option γ₂)
    (n₁ n₂ buf₁ buf₂ : List Char) (e₁ e₂ : Bool) (st : LoadState Cfg)
    (h₁ : fs₁ n₁ = .ok buf₁) (h₂ : fs₂ n₂ = .ok buf₂) :
    (LoadConfig fs₁ env₁ um₁ n₁ e₁ st).1.configHash = [(fingerprintLabel buf₁, 1)] ∧
    (LoadConfig fs₂ env₂ um₂ n₂ e₂ (LoadConfig fs₁ env₁ um₁ n₁ e₁ st).1).1.configHash =
      [(fingerprintLabel buf₂, 1)] :=
  ⟨loadConfig_gauge _ _ _ _ _ _ _ h₁, loadConfig_gauge _ _ _ _ _ _ _ h₂⟩

theorem c8_witness :
    ((fun _ : List Char => (Except.ok "a: 1".toList : Except Unit (List Char)))
        "one.yaml".toList = Except.ok "a: 1".toList) ∧
    ((fun _ : List Char => (Except.ok "b: 2".toList : Except Unit (List Char)))
        "two.yaml".toList = Except.ok "b: 2".toList) ∧
    (LoadConfig (fun _ => (Except.ok "b: 2".toList : Except Unit (List Char)))
        (fun _ => [])
        (fun _ (c : Unit) => (c, (none : Option Unit))) "two.yaml".toList false
        (LoadConfig (fun _ => (Except.ok "a: 1".toList : Except Unit (List Char)))
          (fun _ => [])
          (fun _ (c : Unit) => (c, (none : Option Unit))) "one.yaml".toList false
          ⟨[], ()⟩).1).1.configHash = [(fingerprintLabel "b: 2".toList, 1)] :=
  ⟨rfl, rfl,
   (c8_single_active_fingerprint _ _ _ _ _ _ "one.yaml".toList "two.yaml".toList
     "a: 1".toList "b: 2".toList false false ⟨[], ()⟩ rfl rfl).2⟩

/-- C10: `LoadConfig` does not itself enforce the non-empty-path
precondition.  Invoked with the empty string as filename, the file read
fails (the operating system rejects an empty path — taken as the
hypothesis on the modelled file system), and `LoadConfig` returns the
wrapped read error while leaving the entire state — target configuration
and gauge — unmodified: no fingerprint is published for the attempt. -/
theorem c10_empty_filename_read_failure {ρ γ Cfg : Type}
    (fs : List Char → Except ρ (List Char)) (env : List Char → List Char)
    (um : List Char → Cfg → Cfg × Option γ)
    (expandENV : Bool) (st : LoadState Cfg) (e : ρ) (h : fs [] = .error e) :
    LoadConfig fs env um [] expandENV st = (st, some (.readFailure readErrMsg e)) := by
  simp [LoadConfig, h]

theorem c10_witness :
    ((fun n : List Char =>
        (if n = [] then Except.error () else Except.ok "a: 1".toList : Except Unit (List Char)))
        [] = Except.error ()) ∧
    LoadConfig
        (fun n : List Char =>
          (if n = [] then Except.error () else Except.ok "a: 1".toList : Except Unit (List Char)))
        (fun _ => []) (fun _ (c : Unit) => (c, (none : Option Unit))) [] false
        ⟨[], ()⟩ =
      (⟨[], ()⟩, some (@LoadError.readFailure Unit Unit readErrMsg ())) :=
  ⟨rfl,
   c10_empty_filename_read_failure _ _ _ false ⟨[], ()⟩ () rfl⟩

/-- C4: on any `LoadConfig` failure the orchestrator reports the error to
the diagnostic stream including the config file path and the underlying
cause (the reported pair carries both), then terminates the process with
exit status 1, except under the process-wide test-mode flag, where it
returns to the caller instead; on load success, and when no config file
path was found, the bootstrap neither exits non-zero nor reports
anything. -/
theorem c4_orchestrator_exit_policy {ρ γ Cfg : Type} (tm : Bool)
    (fs : List Char → Except ρ (List Char)) (env : List Char → List Char)
    (um : List Char → Cfg → Cfg × Option γ)
    (args : List (List Char)) (cfg0 : Cfg) :
    (∀ (st1 : LoadState Cfg) (e : LoadError ρ γ),
        (parseConfigFileParameter args).configFile ≠ [] →
        LoadConfig fs env um (parseConfigFileParameter args).configFile
          (parseConfigFileParameter args).expandEnv ⟨[], cfg0⟩ = (st1, some e) →
        mainGo tm fs env um args cfg0 =
          { stderr := [((parseConfigFileParameter args).configFile, e)],
            exitCode := if tm then none else some 1,
            final := st1 }) ∧
    (∀ st1 : LoadState Cfg,
        LoadConfig fs env um (parseConfigFileParameter args).configFile
          (parseConfigFileParameter args).expandEnv ⟨[], cfg0⟩ = (st1, none) →
        (mainGo tm fs env um args cfg0).exitCode = none ∧
        (mainGo tm fs env um args cfg0).stderr = []) ∧
    ((parseConfigFileParameter args).configFile = [] →
        (mainGo tm fs env um args cfg0).exitCode = none ∧
        (mainGo tm fs env um args cfg0).stderr = []) := by
  refine ⟨?_, ?_, ?_⟩
  · intro st1 e hne hload
    simp [mainGo, hne, hload]
  · intro st1 hload
    by_cases hne : (parseConfigFileParameter args).configFile = [] <;>
      simp [mainGo, hne, hload]
  · intro he
    simp [mainGo, he]

theorem c4_witness :
    ((parseConfigFileParameter [configFileEqArg "x".toList]).configFile ≠ []) ∧
    (LoadConfig (fun _ => (Except.error () : Except Unit (List Char))) (fun _ => [])
        (fun _ (c : Unit) => (c, (none : Option Unit)))
        (parseConfigFileParameter [configFileEqArg "x".toList]).configFile
        (parseConfigFileParameter [configFileEqArg "x".toList]).expandEnv
        ⟨[], ()⟩ =
      (⟨[], ()⟩, some (@LoadError.readFailure Unit Unit readErrMsg ()))) ∧
    mainGo false (fun _ => (Except.error () : Except Unit (List Char))) (fun _ => [])
        (fun _ (c : Unit) => (c, (none : Option Unit))) [configFileEqArg "x".toList] () =
      { stderr := [((parseConfigFileParameter [configFileEqArg "x".toList]).configFile,
          @LoadError.readFailure Unit Unit readErrMsg ())],
        exitCode := some 1,
        final := ⟨[], ()⟩ } := by
  have hp : parseConfigFileParameter [configFileEqArg "x".toList] =
      { configFile := "x".toList, expandEnv := false } :=
    parseLoop_cfEq_tail "x".toList [] (by intro s hs; cases hs) []
      (by intro s hs; cases hs) _
  have h1 : (parseConfigFileParameter [configFileEqArg "x".toList]).configFile ≠ [] := by
    rw [hp]
    simp
  have h2 : LoadConfig (fun _ => (Except.error () : Except Unit (List Char))) (fun _ => [])
      (fun _ (c : Unit) => (c, (none : Option Unit)))
      (parseConfigFileParameter [configFileEqArg "x".toList]).configFile
      (parseConfigFileParameter [configFileEqArg "x".toList]).expandEnv
      ⟨[], ()⟩ =
      (⟨[], ()⟩, some (@LoadError.readFailure Unit Unit readErrMsg ())) := rfl
  exact ⟨h1, h2,
    (c4_orchestrator_exit_policy false _ _ _ [configFileEqArg "x".toList] ()).1
      ⟨[], ()⟩ _ h1 h2⟩

/-- C5: for every document containing a field whose key is not part of the
target schema, `LoadConfig` running the strict deserializer returns a
ParseFailure-kind error that wraps the underlying unknown-field cause:
unknown fields are a load error, never silently ignored. -/
theorem c5_unknown_field_parse_failure {ρ Cfg : Type}
    (decode : List Char → List (List Char × List Char))
    (schema : List (List Char)) (assign : Cfg → List Char × List Char → Cfg)
    (fs : List Char → Except ρ (List Char)) (env : List Char → List Char)
    (filename buf : List Char) (expandENV : Bool) (st : LoadState Cfg)
    (k vv : List Char)
    (hread : fs filename = .ok buf)
    (hmem : (k, vv) ∈ decode (if expandENV then expandEnv env buf else buf))
    (hunk : schema.contains k = false) :
    ∃ k2, schema.contains k2 = false ∧
      (LoadConfig fs env (strictUnmarshal decode schema assign) filename expandENV st).2 =
        some (.parseFailure parseErrMsg (.unknownField k2)) := by
  have hex : ∃ f ∈ decode (if expandENV then expandEnv env buf else buf),
      (! schema.contains f.1) = true :=
    ⟨(k, vv), hmem, by
      show (! schema.contains k) = true
      rw [hunk]
      rfl⟩
  have hsome := List.find?_isSome.mpr hex
  rcases ho : (decode (if expandENV then expandEnv env buf else buf)).find?
      (fun f => ! schema.contains f.1) with _ | f
  · rw [ho] at hsome
    cases hsome
  · have hpf := List.find?_some ho
    simp only [Bool.not_eq_true'] at hpf
    refine ⟨f.1, hpf, ?_⟩
    have hres : strictUnmarshal decode schema assign
        (if expandENV then expandEnv env buf else buf) st.cfg =
        (st.cfg, some (.unknownField f.1)) := by
      unfold strictUnmarshal
      simp only [ho]
    simp only [LoadConfig, hread, hres]

theorem c5_witness :
    ((fun _ : List Char => (Except.ok "bogus: 1".toList : Except Unit (List Char)))
        "cfg.yaml".toList = Except.ok "bogus: 1".toList) ∧
    (("bogus".toList, "1".toList) ∈
      (fun _ : List Char => [("bogus".toList, "1".toList)])
        (if false then expandEnv (fun _ => []) "bogus: 1".toList else "bogus: 1".toList)) ∧
    (["server".toList] : List (List Char)).contains "bogus".toList = false ∧
    ∃ k2, (["server".toList] : List (List Char)).contains k2 = false ∧
      (LoadConfig (fun _ => (Except.ok "bogus: 1".toList : Except Unit (List Char)))
          (fun _ => [])
          (strictUnmarshal (fun _ => [("bogus".toList, "1".toList)]) ["server".toList]
            (fun (c : Unit) _ => c))
          "cfg.yaml".toList false ⟨[], ()⟩).2 =
        some (.parseFailure parseErrMsg (.unknownField k2)) :=
  ⟨rfl, by simp, by decide,
   c5_unknown_field_parse_failure (fun _ => [("bogus".toList, "1".toList)])
     ["server".toList] (fun (c : Unit) _ => c) _ _ "cfg.yaml".toList "bogus: 1".toList
     false ⟨[], ()⟩ "bogus".toList "1".toList rfl (by simp) (by decide)⟩
